import Mathlib

/-!
Verification development for the hybrid retrieval and ranking engine of the
eclipse-obsidian backend (src/backend/app.py and src/backend/rag.py).

The Python code is shallowly embedded: dictionaries become structures with
optional fields, Python dicts (which preserve insertion order) become
association lists keyed by `String`, floats become rationals, and the
CPython stable sort becomes a stable insertion sort by a key function.
External collaborators (the sentence embedder, the SQLite stores, the BM25
library, the cross-encoder model) are passed in as parameters, exactly at
the call boundaries the code uses them through.
-/

/-- Stable insertion of one element into a list ordered ascending by the key
function: the new element goes after every earlier element whose key is less
than or equal to its own, which is the CPython stable-sort placement rule. -/
def insertByKey {α β : Type} [LinearOrder β] (k : α → β) (x : α) : List α → List α
  | [] => [x]
  | y :: ys => if k x < k y then x :: y :: ys else y :: insertByKey k x ys

/-- Stable sort ascending by a key function; model of CPython `list.sort`
with `key=...` (and of `reverse=True` via a negated key). -/
def sortByKey {α β : Type} [LinearOrder β] (k : α → β) (l : List α) : List α :=
  l.foldl (fun acc x => insertByKey k x acc) []

/-- Lookup in an association list; model of a Python dict read with `.get`. -/
def lookupKey {α : Type} : List (String × α) → String → Option α
  | [], _ => none
  | (k0, v0) :: rest, k => if k0 = k then some v0 else lookupKey rest k

/-- Write into an association list: an existing key keeps its position (as a
CPython dict assignment does), a new key is appended at the end. -/
def setKey {α : Type} : List (String × α) → String → α → List (String × α)
  | [], k, v => [(k, v)]
  | (k0, v0) :: rest, k, v =>
    if k0 = k then (k, v) :: rest else (k0, v0) :: setKey rest k v

/-- Worker for `pyWords`: walks the characters with the current token
accumulated in reverse, emitting a token at each whitespace boundary. -/
def wsTokensGo : List Char → List Char → List String
  | cur, [] => if cur.isEmpty then [] else [String.mk cur.reverse]
  | cur, c :: rest =>
      if c.isWhitespace then
        if cur.isEmpty then wsTokensGo [] rest
        else String.mk cur.reverse :: wsTokensGo [] rest
      else wsTokensGo (c :: cur) rest

/-- Python `s.split()` : whitespace tokenisation discarding empty pieces. -/
def pyWords (s : String) : List String :=
  wsTokensGo [] s.toList

/-- Python `s.lower()` (ASCII data). -/
def pyLower (s : String) : String :=
  String.mk (s.toList.map Char.toLower)

/-- Python `s.strip()`: drop whitespace from both ends. -/
def pyStrip (s : String) : String :=
  String.mk
    (((s.toList.dropWhile Char.isWhitespace).reverse.dropWhile Char.isWhitespace).reverse)

/-- Python `l[-n:]`. -/
def takeLast {α : Type} (n : Nat) (l : List α) : List α :=
  l.drop (l.length - n)

/-- Interpolation of a possibly missing string, as a Python f-string renders
`None`. -/
def pyOptStr : Option String → String
  | none => "None"
  | some s => s

/-- Python `a or b` over two optional strings, where `None` and the empty
string are falsy. -/
def pyOr (a b : Option String) : Option String :=
  match a with
  | some s => if s = "" then b else some s
  | none => b

/-- Rational addition implemented directly on numerators and denominators so
that it reduces inside `decide`; proved equal to field addition below. -/
def qAdd (a b : ℚ) : ℚ :=
  mkRat (a.num * b.den + b.num * a.den) (a.den * b.den)

/-- Rational multiplication implemented directly on numerators and
denominators so that it reduces inside `decide`. -/
def qMul (a b : ℚ) : ℚ :=
  mkRat (a.num * b.num) (a.den * b.den)

/-- Rational division implemented directly on numerators and denominators so
that it reduces inside `decide`; division by zero yields zero, matching the
field convention. -/
def qDiv (a b : ℚ) : ℚ :=
  if 0 ≤ b.num then mkRat (a.num * b.den) (a.den * b.num.toNat)
  else mkRat (-(a.num * b.den)) (a.den * (-b.num).toNat)

/-- Embedding of a Nat into the rationals that reduces inside `decide`. -/
def qNat (n : Nat) : ℚ := mkRat n 1

/-- The retrieval result unit: a loosely shaped Python dict with the keys the
pipeline reads (`id`, `path`, `text`, `score`, `rank`, `ce_score`). -/
structure Hit where
  id : Option String
  path : Option String
  text : Option String
  score : ℚ
  rank : Option Nat
  ceScore : Option ℚ
deriving DecidableEq, Repr

/-- A hit with every optional key absent and score zero; concrete hits are
built from it by field update. -/
def baseHit : Hit := ⟨none, none, none, 0, none, none⟩

/-- Identity key used by `_rrf_merge` in src/backend/app.py: the `id` when it
is truthy, else the interpolated `path` plus `::` plus the first 50 characters
of the text. -/
def rrfKey (h : Hit) : String :=
  match h.id with
  | some i => if i = "" then pyOptStr h.path ++ "::" ++ (h.text.getD "").take 50 else i
  | none => pyOptStr h.path ++ "::" ++ (h.text.getD "").take 50

/-- One iteration of the inner loop of `_rrf_merge` (app.py): accumulate the
reciprocal-rank contribution for the hit at the given 1-based rank into the
table, preferring strictly longer text and any truthy path on merge. -/
def rrfUpdate (kq : ℚ) (rank : Nat) (t : List (String × Hit)) (h : Hit) :
    List (String × Hit) :=
  let key := rrfKey h
  if key = "" then t
  else
    let prev := (lookupKey t key).getD { h with score := 0 }
    let p1 := { prev with score := qAdd prev.score (qDiv 1 (qAdd kq (qNat rank))) }
    let p2 :=
      match h.text with
      | some tx =>
          if tx ≠ "" ∧ (p1.text.getD "").length < tx.length then { p1 with text := some tx }
          else p1
      | none => p1
    let p3 :=
      match h.path with
      | some p => if p ≠ "" then { p2 with path := some p } else p2
      | none => p2
    setKey t key p3

/-- Fold one ranked source list into the RRF table, ranks starting at the
given value (the code enumerates from 1). -/
def rrfAddHits (kq : ℚ) : List (String × Hit) → Nat → List Hit → List (String × Hit)
  | t, _, [] => t
  | t, rank, h :: hs => rrfAddHits kq (rrfUpdate kq rank t h) (rank + 1) hs

/-- Embedding of `_rrf_merge(hit_lists, top_k, k_rrf)` from src/backend/app.py
(defaults there: `top_k=5`, `k_rrf=60.0`): fold every list into a score table
keyed by `rrfKey`, then stable-sort the accumulated hits descending by score
and truncate to `top_k`. -/
def rrfMerge (hitLists : List (List Hit)) (topK : Nat) (kq : ℚ) : List Hit :=
  let table := hitLists.foldl (fun t hits => rrfAddHits kq t 1 hits) []
  (sortByKey (fun h => -h.score) (table.map Prod.snd)).take topK

/-- An uploaded fragment as stored by the ephemeral session store: one
`{text, path}` dict of `texts_with_paths`. -/
structure EphItem where
  text : String
  path : String
deriving DecidableEq, Repr

/-- Per-session ephemeral state (one value of `EPHEMERAL_SESSIONS` in
src/backend/app.py): `vecs` is the optional stacked embedding matrix (a list
of rows), `items` the full item list, `recent` the bounded recency tail, and
`last_added_at` the timestamp of the latest add. -/
structure EphStore where
  vecs : Option (List (List ℚ))
  items : List EphItem
  recent : List EphItem
  lastAddedAt : ℚ
deriving DecidableEq, Repr

/-- The global `EPHEMERAL_SESSIONS` dict: an insertion-ordered map from
session id to store. -/
abbrev EphState := List (String × EphStore)

/-- The fresh store inserted by `setdefault`. -/
def emptyStore : EphStore := ⟨none, [], [], 0⟩

/-- Session cap `MAX_EPHEMERAL_SESSIONS` from src/backend/app.py. -/
def MAX_EPHEMERAL_SESSIONS : Nat := 10

/-- Vector cap `MAX_VECTORS_PER_SESSION` from src/backend/app.py. -/
def MAX_VECTORS_PER_SESSION : Nat := 50

/-- The bulk session cleanup in `_ephemeral_add`: sort the sessions by
`last_added_at` ascending (stable, as `sorted` is) and delete the oldest
half from the map, keeping the survivors in their original order. -/
def evictOldestSessions (st : EphState) : EphState :=
  let sorted := sortByKey (fun p => p.2.lastAddedAt) st
  let doomed := (sorted.take (st.length / 2)).map Prod.fst
  st.filter (fun p => !(doomed.contains p.1))

/-- Embedding of `_ephemeral_add(session_id, texts_with_paths)` from
src/backend/app.py along its main path (the RAG embedder available, so the
batch is embedded and stacked; the silent fallback on embedder failure is
outside this model). `embed` stands for `rag.embed_fn` on a batch of texts
and `now` for `time.time()`. Note the source trims only `vecs` on overflow,
appends the batch to `items` unconditionally, and keeps a 24-item `recent`
tail. -/
def ephemeralAdd (st : EphState) (sid : String) (batch : List EphItem)
    (embed : List String → List (List ℚ)) (now : ℚ) : EphState :=
  if sid = "" then st
  else
    let texts := batch.map EphItem.text
    if texts.isEmpty then st
    else
      let vecs := embed texts
      let st1 := if MAX_EPHEMERAL_SESSIONS ≤ st.length then evictOldestSessions st else st
      let store := (lookupKey st1 sid).getD emptyStore
      let newVecs :=
        match store.vecs with
        | none => vecs
        | some old =>
            if MAX_VECTORS_PER_SESSION ≤ old.length then
              old.drop (old.length - MAX_VECTORS_PER_SESSION / 2) ++ vecs
            else old ++ vecs
      setKey st1 sid
        ⟨some newVecs, store.items ++ batch, takeLast 24 (store.recent ++ batch), now⟩

/-- Dot product of two embedding rows (`vecs @ qv[0]` one row at a time). -/
def dotQ : List ℚ → List ℚ → ℚ
  | [], _ => 0
  | _ :: _, [] => 0
  | x :: xs, y :: ys => qAdd (qMul x y) (dotQ xs ys)

/-- Model of `np.argsort(-scores)`: indices ordered by score descending.
The NumPy default sort is not stable; ties are resolved here by ascending
index, which is the order NumPy produces on the inputs considered. -/
def argsortDesc (scores : List ℚ) : List Nat :=
  sortByKey (fun i => -(scores.getD i 0)) (List.range scores.length)

/-- Build the hit list of `_ephemeral_retrieve` from the chosen indices:
`enumerate` assigns ranks from 1, and each hit carries the text and path of the stored item plus the synthetic id `ephemeral::<index>`. -/
def ephHitsFrom (scores : List ℚ) (items : List EphItem) : Nat → List Nat → List Hit
  | _, [] => []
  | rank, i :: rest =>
      { id := some ("ephemeral::" ++ toString i)
        path := some ((items.getD i ⟨"", ""⟩).path)
        text := some ((items.getD i ⟨"", ""⟩).text)
        score := scores.getD i 0
        rank := some (rank + 1)
        ceScore := none } :: ephHitsFrom scores items (rank + 1) rest

/-- Embedding of `_ephemeral_retrieve(session_id, query, top_k)` from
src/backend/app.py along its main path (embedder available): empty result
for a falsy or unknown session id or missing/empty vectors, otherwise dot
products of the stored rows against the embedded query, top indices by
descending score, and hits built from the parallel `items` list. -/
def ephemeralRetrieve (st : EphState) (sid : String) (query : String) (topK : Nat)
    (embed : List String → List (List ℚ)) : List Hit :=
  if sid = "" then []
  else
    match lookupKey st sid with
    | none => []
    | some store =>
        match store.vecs with
        | none => []
        | some vecs =>
            if vecs.isEmpty then []
            else
              let qv := (embed [query]).headD []
              let scores := vecs.map (fun v => dotQ v qv)
              ephHitsFrom scores store.items 0 ((argsortDesc scores).take topK)

/-- The bounded recency tail `_ephemeral_recent(session_id, max_items)`. -/
def ephemeralRecent (st : EphState) (sid : String) (maxItems : Nat) : List EphItem :=
  if sid = "" then []
  else
    match lookupKey st sid with
    | none => []
    | some store => takeLast maxItems store.recent

/-- A row of the legacy `memories` table as `search_memories` returns it
(src/backend/memory.py): id, type and content (the timestamp is not read by
the retrieval path). -/
structure LegacyMem where
  memId : Nat
  typ : String
  content : String
deriving DecidableEq, Repr

/-- A row of the structured `mem_item` table as `list_mem_items` returns it
(src/backend/memory.py): id, kind and the optional title and body read by
`_semantic_memory_retrieve`. -/
structure MemItem where
  memId : String
  kind : String
  title : Option String
  body : Option String
deriving DecidableEq, Repr

/-- Character-list version of `String.startsWith` used by the substring and
phrase matchers below. -/
def startsWithChars : List Char → List Char → Bool
  | _, [] => true
  | [], _ :: _ => false
  | c :: cs, p :: ps => (c == p) && startsWithChars cs ps

/-- Substring containment over character lists. -/
def charsContain (hay : List Char) (needle : List Char) : Bool :=
  (List.range (hay.length + 1)).any (fun i => startsWithChars (hay.drop i) needle)

/-- SQLite `field LIKE %q%` for ASCII data: case-insensitive substring
containment. -/
def likeMatch (field : String) (q : String) : Bool :=
  charsContain (pyLower field).toList (pyLower q).toList

/-- Embedding of `search_memories(user_id, query, limit)` from
src/backend/memory.py: rows of the `memories` table (passed here already
ordered by timestamp descending, as the SQL `ORDER BY ts DESC` yields them)
whose content or type contains the stripped query, truncated to `limit`;
an empty stripped query returns nothing. -/
def searchMemories (rows : List LegacyMem) (query : String) (limit : Nat) :
    List LegacyMem :=
  let q := pyStrip query
  if q = "" then []
  else (rows.filter (fun m => likeMatch m.content q || likeMatch m.typ q)).take limit

/-- Deduplication keeping first occurrences; model of building a Python set
from a list when only membership and cardinality are used. -/
def dedupSeen : List String → List String → List String
  | _, [] => []
  | seen, x :: xs =>
      if seen.contains x then dedupSeen seen xs else x :: dedupSeen (x :: seen) xs

/-- The distinct whitespace tokens of a string: `set(s.split())`. -/
def distinctWords (s : String) : List String := dedupSeen [] (pyWords s)

/-- The keyword-overlap score `_semantic_memory_retrieve` gives one
structured memory: `max(body_score, title_score)` where each is the number
of distinct query words occurring among the words of the lowercased field,
divided by `max(len(query_words), 1)`. -/
def structCombined (qWords : List String) (m : MemItem) : ℚ :=
  let bodyWords := pyWords (pyLower (m.body.getD ""))
  let titleWords := pyWords (pyLower (m.title.getD ""))
  let bodyInter := (qWords.filter (fun w => bodyWords.contains w)).length
  let titleInter := (qWords.filter (fun w => titleWords.contains w)).length
  let den := qNat (max qWords.length 1)
  max (qDiv (qNat bodyInter) den) (qDiv (qNat titleInter) den)

/-- The snippet `_semantic_memory_retrieve` renders for a structured memory:
a `Title:` line when the title is truthy, then `Content:` plus the first 500
characters of the body when the body is truthy. -/
def structContent (m : MemItem) : String :=
  (match m.title with
   | some t => if t = "" then "" else "Title: " ++ t ++ "\n"
   | none => "") ++
  (match m.body with
   | some b => if b = "" then "" else "Content: " ++ b.take 500
   | none => "")

/-- The legacy-memory hits of `_semantic_memory_retrieve`: each matched row
becomes a hit with id `legacy_<id>`, path `memory_<type>`, the content as
text and the fixed score 0.7; `rank` is the running result count plus one. -/
def legacyHits : Nat → List LegacyMem → List Hit
  | _, [] => []
  | n, m :: ms =>
      { id := some ("legacy_" ++ toString m.memId)
        path := some ("memory_" ++ m.typ)
        text := some m.content
        score := mkRat 7 10
        rank := some (n + 1)
        ceScore := none } :: legacyHits (n + 1) ms

/-- The structured-memory loop of `_semantic_memory_retrieve`: appends a hit
for every windowed item whose combined keyword score exceeds 0.1 and whose
rendered snippet is non-empty, with id `structured_<id>`, path
`memory_<kind>` and the combined score; `rank` is the running result count
plus one. -/
def structHitsAcc (qWords : List String) : List Hit → List MemItem → List Hit
  | results, [] => results
  | results, m :: ms =>
      let combined := structCombined qWords m
      if mkRat 1 10 < combined then
        let content := structContent m
        if content = "" then structHitsAcc qWords results ms
        else
          structHitsAcc qWords
            (results ++ [{ id := some ("structured_" ++ m.memId)
                           path := some ("memory_" ++ m.kind)
                           text := some content
                           score := combined
                           rank := some (results.length + 1)
                           ceScore := none }]) ms
      else structHitsAcc qWords results ms

/-- Embedding of `_semantic_memory_retrieve(user_id, query, limit)` from
src/backend/app.py. `legacyRows` is the `memories` table ordered by
timestamp descending and `structRows` the `mem_item` table ordered by
`updated_at` descending, the read contracts of `search_memories` and
`list_mem_items`; both SQL `LIMIT limit//2` clauses appear as `take`.
Legacy text matches score a fixed 0.7, structured items score their keyword
overlap, and the combined list is stable-sorted by score descending and
truncated to `limit`. -/
def semanticMemoryRetrieve (legacyRows : List LegacyMem) (structRows : List MemItem)
    (query : String) (limit : Nat) : List Hit :=
  if pyStrip query = "" then []
  else
    let qLower := pyStrip (pyLower query)
    let legacy := legacyHits 0 (searchMemories legacyRows query (limit / 2))
    let qWords := distinctWords qLower
    let results := structHitsAcc qWords legacy (structRows.take (limit / 2))
    (sortByKey (fun h => -h.score) results).take limit

/-- A durable memory record as §4.7 of the spec describes the retrieval
window: only the content field matters to the claimed algorithm. -/
structure SpecMemRecord where
  content : String
deriving DecidableEq, Repr

/-- Modelled from the spec (§4.7), for comparison against the code: the
claimed keyword-overlap boost, a fixed bonus of 1.5 for any record whose
content shares a token of length greater than 3 with the query. -/
def claimedKeywordBoost (query content : String) : ℚ :=
  if (pyWords (pyLower query)).any
      (fun w => decide (3 < w.length) && (pyWords (pyLower content)).contains w)
  then mkRat 3 2 else 0

/-- Modelled from the spec (§4.7), for comparison against the code: score
every record of the bounded recent window as `semantic_score plus
keyword_boost` for an arbitrary embedder-similarity function `sem`, sort
descending, truncate to `limit`. -/
def claimedMemoryRetrieve (sem : String → String → ℚ) (window : List SpecMemRecord)
    (query : String) (limit : Nat) : List Hit :=
  let scored := window.map (fun r =>
    { baseHit with text := some r.content
                   score := qAdd (sem query r.content) (claimedKeywordBoost query r.content) })
  (sortByKey (fun h => -h.score) scored).take limit

/-- A regex word character (`\w` over ASCII data): alphanumeric or
underscore. -/
def isWordChar (c : Char) : Bool := c.isAlphanum || c == '_'

/-- A `\b` boundary holds just before position `i` when `i` is the start of
the string or the previous character is not a word character (every
alternative matched below starts with a word character). -/
def boundaryBefore (cs : List Char) (i : Nat) : Bool :=
  i == 0 || !(isWordChar (cs.getD (i - 1) ' '))

/-- A `\b` boundary holds just after position `j` when `j` is the end of the
string or the character there is not a word character (every alternative
matched below ends with a word character). -/
def boundaryAfter (cs : List Char) (j : Nat) : Bool :=
  cs.length ≤ j || !(isWordChar (cs.getD j ' '))

/-- Literal phrase match at position `i` with `\b` boundaries on both
sides. -/
def matchPhraseAt (cs : List Char) (i : Nat) (p : String) : Bool :=
  boundaryBefore cs i && startsWithChars (cs.drop i) p.toList
    && boundaryAfter cs (i + p.toList.length)

/-- Match of the alternative `X` or `Xs` (regex `Xs?`) at a position, with
boundaries, as the optional plural alternatives in `_expand_queries` use. -/
def matchOptPluralAt (cs : List Char) (i : Nat) (p : String) : Bool :=
  matchPhraseAt cs i (p ++ "s") || matchPhraseAt cs i p

/-- Number of leading whitespace characters from position `j` (the maximal
`\s*` run; the run is forced because the following literal starts with a
non-whitespace character). -/
def wsRunFrom (cs : List Char) (j : Nat) : Nat :=
  ((cs.drop j).takeWhile Char.isWhitespace).length

/-- Match of the alternative `work\s*ex` at a position, with boundaries. -/
def matchWorkExAt (cs : List Char) (i : Nat) : Bool :=
  boundaryBefore cs i && startsWithChars (cs.drop i) "work".toList
    && (let j := i + 4 + wsRunFrom cs (i + 4)
        startsWithChars (cs.drop j) "ex".toList && boundaryAfter cs (j + 2))

/-- The first `re.search` of `_expand_queries`: work-experience cues. -/
def workExCue (s : String) : Bool :=
  let cs := s.toList
  (List.range (cs.length + 1)).any (fun i =>
    matchWorkExAt cs i || matchPhraseAt cs i "work experience"
      || matchPhraseAt cs i "job history" || matchPhraseAt cs i "employment history"
      || matchPhraseAt cs i "career" || matchPhraseAt cs i "resume")

/-- The second `re.search` of `_expand_queries`: pet-peeve cues. -/
def petPeeveCue (s : String) : Bool :=
  let cs := s.toList
  (List.range (cs.length + 1)).any (fun i =>
    matchPhraseAt cs i "pet peeve" || matchOptPluralAt cs i "annoyance"
      || matchOptPluralAt cs i "irritation"
      || matchPhraseAt cs i "things that bother me"
      || matchPhraseAt cs i "things that bother you")

/-- The third `re.search` of `_expand_queries`: preference and biography
cues. -/
def preferenceCue (s : String) : Bool :=
  let cs := s.toList
  (List.range (cs.length + 1)).any (fun i =>
    matchOptPluralAt cs i "preference" || matchOptPluralAt cs i "like"
      || matchOptPluralAt cs i "dislike" || matchPhraseAt cs i "bio"
      || matchPhraseAt cs i "about me" || matchPhraseAt cs i "about you")

/-- Embedding of `_expand_queries(q)` from src/backend/app.py. The source
accumulates the variants in a Python set whose iteration order is
unspecified; this model returns them deduplicated in insertion order (the
stripped query first, then each matched cluster in code order), which fixes
one enumeration of that set. Claims about it only use membership and
emptiness, which are order-independent. -/
def expandQueries (q : String) : List String :=
  let base := pyStrip q
  if base = "" then []
  else
    let lower := pyLower base
    let v1 := [base]
    let v2 := if workExCue lower then
        v1 ++ ["work experience", "employment history", "career history",
               "job roles", "past companies", "professional experience"]
      else v1
    let v3 := if petPeeveCue lower then
        v2 ++ ["pet peeves", "biggest annoyance", "things I dislike",
               "things that bother me", "what irritates me"]
      else v2
    let v4 := if preferenceCue lower then
        v3 ++ ["personal preferences", "likes and dislikes", "about me", "biography"]
      else v3
    dedupSeen [] v4

/-- Identity key of the RRF fold inside `RAG.retrieve` (src/backend/rag.py):
`h.get("id") or h.get("path")`, with a positional fallback key when both are
falsy. -/
def ragKey (h : Hit) (fb : String) : String :=
  match pyOr h.id h.path with
  | some k => if k = "" then fb else k
  | none => fb

/-- One dense-list iteration of the RRF fold in `RAG.retrieve`: accumulate
`1/(60 + rank)` under the key of the hit (no text or path merging happens in the
dense loop). -/
def ragDenseStep (t : List (String × Hit)) (rank : Nat) (h : Hit) :
    List (String × Hit) :=
  let key := ragKey h ("dense::" ++ toString rank)
  let prev := (lookupKey t key).getD { h with score := 0 }
  setKey t key { prev with score := qAdd prev.score (qDiv 1 (qAdd 60 (qNat rank))) }

/-- The dense loop of the RRF fold in `RAG.retrieve`, with the member filter
against `allowed_ids` (a hit with no id never passes a present filter); the
enumeration rank advances also over skipped hits. -/
def ragDenseFold (allowed : Option (List String)) :
    List (String × Hit) → Nat → List Hit → List (String × Hit)
  | t, _, [] => t
  | t, rank, h :: hs =>
      let keep :=
        match allowed with
        | some ids => match h.id with
          | some i => ids.contains i
          | none => false
        | none => true
      ragDenseFold allowed (if keep then ragDenseStep t rank h else t) (rank + 1) hs

/-- One keyword-list iteration of the RRF fold in `RAG.retrieve`: accumulate
`1/(60 + rank)`, keep the strictly longer text, and take any truthy path. -/
def ragKwStep (t : List (String × Hit)) (rank : Nat) (h : Hit) :
    List (String × Hit) :=
  let key := ragKey h ("kw::" ++ toString rank)
  let prev := (lookupKey t key).getD { h with score := 0 }
  let p1 := { prev with score := qAdd prev.score (qDiv 1 (qAdd 60 (qNat rank))) }
  let p2 := if (p1.text.getD "").length < (h.text.getD "").length
    then { p1 with text := h.text } else p1
  let p3 :=
    match h.path with
    | some p => if p = "" then p2 else { p2 with path := some p }
    | none => p2
  setKey t key p3

/-- The keyword loop of the RRF fold in `RAG.retrieve` (its input list is
already filtered by `allowed_ids` where it is built). -/
def ragKwFold : List (String × Hit) → Nat → List Hit → List (String × Hit)
  | t, _, [] => t
  | t, rank, h :: hs => ragKwFold (ragKwStep t rank h) (rank + 1) hs

/-- The fused candidate list of `RAG.retrieve` before the relevance floor:
fold the dense list then the keyword list into the RRF table and stable-sort
the accumulated hits by score descending. -/
def rrfMergedRag (dense kw : List Hit) (allowed : Option (List String)) : List Hit :=
  sortByKey (fun h => -h.score) ((ragKwFold (ragDenseFold allowed [] 1 dense) 1 kw).map Prod.snd)

/-- The fused list after the relevance floor of `RAG.retrieve`: only hits
with accumulated score strictly above 0.01 survive. -/
def rrfFilteredRag (dense kw : List Hit) (allowed : Option (List String)) : List Hit :=
  (rrfMergedRag dense kw allowed).filter (fun h => decide (mkRat 1 100 < h.score))

/-- The sort key of the cross-encoder stage of `RAG.retrieve`:
`(-ce_score, path or "", id or "")`, compared lexicographically as Python
compares tuples. -/
def ceSortKey (h : Hit) : Lex (ℚ × Lex (String × String)) :=
  toLex (-(h.ceScore.getD 0), toLex (h.path.getD "", h.id.getD ""))

/-- Attach the predicted cross-encoder scores to the candidates pairwise, as
`zip` does (the shorter list truncates the assignment). -/
def assignCe : List Hit → List ℚ → List Hit
  | [], _ => []
  | h :: hs, [] => h :: hs
  | h :: hs, s :: ss => { h with ceScore := some s } :: assignCe hs ss

/-- Embedding of the ranking core of `RAG.retrieve(query)` from
src/backend/rag.py. `dense` is the ranked list the dense retriever returned
(already truncated to `top_k*6` there), `kw` the concatenated keyword list
(SQLite FTS rows then BM25 rows, both built and filtered upstream of the RRF
fold), `rr` the loaded cross-encoder as a scoring function (`none` when
`CrossEncoder` failed to load), and `allowed` the optional id filter built
from the memory database. After RRF fusion and the 0.01 relevance floor,
the cross-encoder stage runs only when a reranker is loaded, the filtered
list is non-empty and the query has more than 3 whitespace tokens; it then
scores the top `top_k*12` candidates and resorts them by `ceSortKey`.
Either way the result is truncated to `top_k`. -/
def ragRetrieve (dense kw : List Hit) (rr : Option (List (String × String) → List ℚ))
    (allowed : Option (List String)) (query : String) (topK : Nat) : List Hit :=
  let filtered := rrfFilteredRag dense kw allowed
  match rr with
  | some f =>
      if filtered.isEmpty || (pyWords query).length ≤ 3 then filtered.take topK
      else
        let topN := min filtered.length (topK * 12)
        let cand := filtered.take topN
        let ces := f (cand.map (fun h => (query, h.text.getD "")))
        (sortByKey ceSortKey (assignCe cand ces)).take topK
  | none => filtered.take topK

/-- The memory source of `_build_context_bundle` (src/backend/app.py):
semantic memory retrieval with `limit=3`, gated on the message having at
least 15 whitespace tokens, else the empty list. -/
def memHitsGated (legacyRows : List LegacyMem) (structRows : List MemItem)
    (message : String) : List Hit :=
  if 15 ≤ (pyWords message).length
  then semanticMemoryRetrieve legacyRows structRows message 3
  else []

/-- Embedding of the hit pipeline of `_build_context_bundle(user_id,
message, session_id)` from src/backend/app.py (the async
`ContextManager._build_context_async` fuses the same three lists the same
way). `retrieveFn` stands for the hybrid retriever call
`retriever.build_context(message)[1]`; its result is truncated to 3 dense
hits. The memory source is gated on 15 query tokens, the ephemeral source is
read with `top_k=5`, and the three lists are fused by a second RRF pass with
`top_k=5`, dense hits first. A `session_id` of `None` behaves as the empty
string here (both are falsy in the source). -/
def buildContextAllHits (retrieveFn : String → List Hit)
    (legacyRows : List LegacyMem) (structRows : List MemItem)
    (ephSt : EphState) (embed : List String → List (List ℚ))
    (sid : String) (message : String) : List Hit :=
  let dense := (retrieveFn message).take 3
  let mem :=
    if 15 ≤ (pyWords message).length
    then semanticMemoryRetrieve legacyRows structRows message 3
    else []
  let eph := ephemeralRetrieve ephSt sid message 5 embed
  rrfMerge [dense, mem, eph] 5 60

/-- Modelled from the spec (§4.9 step 5), for comparison against the code:
the claimed second fusion pass over `[ephemeral_hits, memory_hits,
doc_hits]`, ephemeral first and doc hits last. -/
def claimedSecondPassEphFirst (doc mem eph : List Hit) : List Hit :=
  rrfMerge [eph, mem, doc] 5 60

/-- Modelled from the spec (§4.9 steps 1 to 3), for comparison against the
code: the claimed doc-hit source, one dense search per expansion variant of
the query, fused into a single ranked list by RRF. -/
def claimedPerVariantDocHits (retrieveFn : String → List Hit) (q : String) : List Hit :=
  rrfMerge ((expandQueries q).map retrieveFn) 5 60

/-- A one-fragment ephemeral session used by concrete evaluations below. -/
def oneItemState : EphState :=
  [("s", ⟨some [[1]], [⟨"ee", "pp"⟩], [⟨"ee", "pp"⟩], 0⟩)]

/-- A constant embedder assigning the unit one-dimensional vector to every
text; used by concrete evaluations below. -/
def unitEmbed : List String → List (List ℚ) :=
  fun ts => ts.map (fun _ => [1])

/-- A session built by 51 one-item adds with timestamps 0 to 50. -/
def singleAddLoop : EphState :=
  (List.range 51).foldl
    (fun st i => ephemeralAdd st "s" [⟨"t", "p"⟩] unitEmbed (qNat i)) []

/-- A single batch of 60 items. -/
def batch60 : List EphItem := (List.range 60).map (fun _ => ⟨"t", "p"⟩)

/-- The dense list of the worked RRF example: ids `a`, `b` at ranks 1, 2. -/
def exDenseList : List Hit :=
  [{ baseHit with id := some "a", rank := some 1 },
   { baseHit with id := some "b", rank := some 2 }]

/-- The lexical list of the worked RRF example: ids `b`, `c` at ranks 1, 2. -/
def exLexList : List Hit :=
  [{ baseHit with id := some "b", rank := some 1 },
   { baseHit with id := some "c", rank := some 2 }]

/-- A constant dense retriever returning one hit with id `d`; used by
concrete evaluations below. -/
def dHit : Hit :=
  { baseHit with id := some "d", text := some "dd", path := some "pd",
                 score := mkRat 9 10, rank := some 1 }

/-- The dense retriever function of the C3 counterexample. -/
def cDenseFn : String → List Hit := fun _ => [dHit]

/-- A dense retriever that returns a hit only for the variant query
`employment history`; used by the C5 counterexample. -/
def c5Fn : String → List Hit :=
  fun q => if q = "employment history" then
    [{ baseHit with id := some "e5", text := some "et" }] else []

/-- The hit the code produces for a matching legacy memory row; used by the
C4 witness. -/
def c4Hit : Hit :=
  { id := some "legacy_1", path := some "memory_fact", text := some "hello world",
    score := mkRat 7 10, rank := some 1, ceScore := none }

/-- The accumulated hit `RAG.retrieve` produces from the single dense hit
`dHit`; used by the C6 and C10 witnesses. -/
def dAccHit : Hit :=
  { id := some "d", path := some "pd", text := some "dd",
    score := mkRat 1 61, rank := some 1, ceScore := none }

/-- A constant cross-encoder scoring every pair 0; used by the C6 witness. -/
def ceConst : List (String × String) → List ℚ := fun ps => ps.map (fun _ => 0)

/-- The 40-hit dense list of the C10 example: distinct ids `h0` to `h39` at
ranks 1 to 40. -/
def dense40 : List Hit :=
  (List.range 40).map (fun i => { baseHit with id := some ("h" ++ toString i),
                                               text := some "t" })

theorem mem_insertByKey {α β : Type} [LinearOrder β] (k : α → β) (x a : α) :
    ∀ l : List α, a ∈ insertByKey k x l ↔ a = x ∨ a ∈ l := by
  intro l
  induction l with
  | nil => simp [insertByKey]
  | cons y ys ih =>
    by_cases h : k x < k y
    · simp [insertByKey, h]
    · simp only [insertByKey, if_neg h, List.mem_cons, ih]
      tauto

theorem mem_foldl_insertByKey {α β : Type} [LinearOrder β] (k : α → β) (a : α) :
    ∀ (l acc : List α),
      a ∈ l.foldl (fun acc x => insertByKey k x acc) acc ↔ a ∈ acc ∨ a ∈ l := by
  intro l
  induction l with
  | nil => simp
  | cons x xs ih =>
    intro acc
    simp only [List.foldl_cons, ih, mem_insertByKey, List.mem_cons]
    tauto

theorem mem_sortByKey {α β : Type} [LinearOrder β] (k : α → β) (a : α) (l : List α) :
    a ∈ sortByKey k l ↔ a ∈ l := by
  simp [sortByKey, mem_foldl_insertByKey]

theorem pairwise_insertByKey {α β : Type} [LinearOrder β] (k : α → β) (x : α) :
    ∀ l : List α, l.Pairwise (fun a b => k a ≤ k b) →
      (insertByKey k x l).Pairwise (fun a b => k a ≤ k b) := by
  intro l
  induction l with
  | nil => simp [insertByKey]
  | cons y ys ih =>
    intro hp
    rcases List.pairwise_cons.mp hp with ⟨hy, hys⟩
    by_cases h : k x < k y
    · rw [insertByKey, if_pos h]
      refine List.pairwise_cons.mpr ⟨?_, hp⟩
      intro b hb
      rcases List.mem_cons.mp hb with hb | hb
      · exact le_of_lt (hb ▸ h)
      · exact le_trans (le_of_lt h) (hy b hb)
    · rw [insertByKey, if_neg h]
      refine List.pairwise_cons.mpr ⟨?_, ih hys⟩
      intro b hb
      rcases (mem_insertByKey k x b ys).mp hb with hb | hb
      · exact hb ▸ le_of_not_lt h
      · exact hy b hb

theorem pairwise_foldl_insertByKey {α β : Type} [LinearOrder β] (k : α → β) :
    ∀ (l acc : List α), acc.Pairwise (fun a b => k a ≤ k b) →
      (l.foldl (fun acc x => insertByKey k x acc) acc).Pairwise (fun a b => k a ≤ k b) := by
  intro l
  induction l with
  | nil => intro acc h; simpa using h
  | cons x xs ih =>
    intro acc h
    exact ih (insertByKey k x acc) (pairwise_insertByKey k x acc h)

theorem pairwise_sortByKey {α β : Type} [LinearOrder β] (k : α → β) (l : List α) :
    (sortByKey k l).Pairwise (fun a b => k a ≤ k b) :=
  pairwise_foldl_insertByKey k l [] (by simp)

theorem lookupKey_setKey_ne {α : Type} (k k2 : String) (v : α) (h : k ≠ k2) :
    ∀ t : List (String × α), lookupKey (setKey t k v) k2 = lookupKey t k2 := by
  intro t
  induction t with
  | nil => simp [setKey, lookupKey, h]
  | cons e rest ih =>
    by_cases he : e.1 = k
    · have hne : ¬ (k = k2) := h
      simp [setKey, he, lookupKey, hne, he ▸ hne]
    · by_cases he2 : e.1 = k2
      · have h2 : ¬ (k2 = k) := fun hh => h hh.symm
        simp [setKey, he, lookupKey, he2, h2]
      · simp [setKey, he, lookupKey, he2, ih]

theorem lookupKey_filterKey {α : Type} (p : String → Bool) (k : String) :
    ∀ t : List (String × α),
      lookupKey (t.filter (fun e => p e.1)) k =
        if p k then lookupKey t k else none := by
  intro t
  induction t with
  | nil => simp [lookupKey]
  | cons e rest ih =>
    by_cases he : e.1 = k
    · by_cases hp : p k
      · simp [List.filter_cons, he, hp, lookupKey]
      · simp only [List.filter_cons, he]
        simp [hp, lookupKey, ih]
    · by_cases hpe : p e.1
      · simp [List.filter_cons, hpe, lookupKey, he, ih]
      · simp [List.filter_cons, hpe, lookupKey, he, ih]

theorem qAdd_eq (a b : ℚ) : qAdd a b = a + b := by
  have ha : ((a.den : ℚ)) ≠ 0 := by exact_mod_cast a.den_nz
  have hb : ((b.den : ℚ)) ≠ 0 := by exact_mod_cast b.den_nz
  rw [qAdd, Rat.mkRat_eq_div]
  push_cast
  conv_rhs => rw [← Rat.num_div_den a, ← Rat.num_div_den b]
  rw [div_add_div _ _ ha hb]
  ring_nf

theorem qMul_eq (a b : ℚ) : qMul a b = a * b := by
  have ha : ((a.den : ℚ)) ≠ 0 := by exact_mod_cast a.den_nz
  have hb : ((b.den : ℚ)) ≠ 0 := by exact_mod_cast b.den_nz
  rw [qMul, Rat.mkRat_eq_div]
  push_cast
  conv_rhs => rw [← Rat.num_div_den a, ← Rat.num_div_den b]
  rw [div_mul_div_comm]

theorem div_eq_num_den (a b : ℚ) :
    a / b = ((a.num * b.den : ℤ) : ℚ) / ((a.den : ℚ) * (b.num : ℚ)) := by
  by_cases hz : b = 0
  · subst hz
    simp
  · have hbn : (b.num : ℚ) ≠ 0 := by exact_mod_cast Rat.num_ne_zero.mpr hz
    have had : ((a.den : ℚ)) ≠ 0 := by exact_mod_cast a.den_nz
    have hbd : ((b.den : ℚ)) ≠ 0 := by exact_mod_cast b.den_nz
    have hmul : (a.den : ℚ) * (b.num : ℚ) ≠ 0 := mul_ne_zero had hbn
    rw [div_eq_div_iff hz hmul]
    have ha2 : a * (a.den : ℚ) = (a.num : ℚ) := by
      nth_rewrite 1 [← Rat.num_div_den a]
      exact div_mul_cancel₀ _ had
    have hb2 : b * (b.den : ℚ) = (b.num : ℚ) := by
      nth_rewrite 1 [← Rat.num_div_den b]
      exact div_mul_cancel₀ _ hbd
    push_cast
    calc a * ((a.den : ℚ) * (b.num : ℚ)) = (a * (a.den : ℚ)) * (b.num : ℚ) := by ring
      _ = (a.num : ℚ) * (b.num : ℚ) := by rw [ha2]
      _ = (a.num : ℚ) * (b * (b.den : ℚ)) := by rw [hb2]
      _ = (a.num : ℚ) * (b.den : ℚ) * b := by ring

theorem qDiv_eq (a b : ℚ) : qDiv a b = a / b := by
  rcases le_or_lt 0 b.num with hpos | hneg
  · rw [qDiv, if_pos hpos, Rat.mkRat_eq_div, div_eq_num_den a b]
    have h3 : ((b.num.toNat : ℕ) : ℚ) = (b.num : ℚ) := by
      exact_mod_cast Int.toNat_of_nonneg hpos
    have h1 : (((a.den * b.num.toNat : ℕ)) : ℚ) = (a.den : ℚ) * (b.num : ℚ) := by
      push_cast [h3]
      ring
    rw [h1]
  · rw [qDiv, if_neg (not_le.mpr hneg), Rat.mkRat_eq_div, div_eq_num_den a b]
    have h3 : (((-b.num).toNat : ℕ) : ℚ) = -(b.num : ℚ) := by
      exact_mod_cast Int.toNat_of_nonneg (by omega : (0:ℤ) ≤ -b.num)
    have h1 : (((a.den * (-b.num).toNat : ℕ)) : ℚ) = -((a.den : ℚ) * (b.num : ℚ)) := by
      push_cast [h3]
      ring
    rw [h1]
    push_cast
    rw [div_neg, ← neg_div, neg_neg]

theorem qNat_eq (n : Nat) : qNat n = (n : ℚ) := by
  rw [qNat, Rat.mkRat_eq_div]
  norm_num

theorem ephemeralRetrieve_congr (st1 st2 : EphState) (sid q : String) (k : Nat)
    (e : List String → List (List ℚ)) (h : lookupKey st1 sid = lookupKey st2 sid) :
    ephemeralRetrieve st1 sid q k e = ephemeralRetrieve st2 sid q k e := by
  simp only [ephemeralRetrieve, h]

theorem ephemeralRetrieve_of_lookup_none (st : EphState) (sid q : String) (k : Nat)
    (e : List String → List (List ℚ)) (h : lookupKey st sid = none) :
    ephemeralRetrieve st sid q k e = [] := by
  simp only [ephemeralRetrieve, h]
  split
  · rfl
  · rfl

theorem lookup_evictOldestSessions (st : EphState) (sid : String) :
    lookupKey (evictOldestSessions st) sid = lookupKey st sid ∨
      lookupKey (evictOldestSessions st) sid = none := by
  have h := lookupKey_filterKey
    (fun x => !(List.map Prod.fst
      (List.take (List.length st / 2) (sortByKey (fun p => p.2.lastAddedAt) st))).contains x)
    sid st
  rw [evictOldestSessions]
  rw [h]
  split
  · exact Or.inl rfl
  · exact Or.inr rfl

theorem lookup_ephemeralAdd_ne (st : EphState) (A B : String)
    (batch : List EphItem) (embed : List String → List (List ℚ)) (t : ℚ)
    (hAB : A ≠ B) :
    lookupKey (ephemeralAdd st A batch embed t) B = lookupKey st B ∨
      lookupKey (ephemeralAdd st A batch embed t) B = none := by
  rw [ephemeralAdd]
  by_cases hA : A = ""
  · rw [if_pos hA]
    exact Or.inl rfl
  · rw [if_neg hA]
    by_cases hempty : (batch.map EphItem.text).isEmpty
    · rw [if_pos hempty]
      exact Or.inl rfl
    · rw [if_neg hempty]
      simp only
      rw [lookupKey_setKey_ne A B _ hAB]
      by_cases hlen : MAX_EPHEMERAL_SESSIONS ≤ st.length
      · rw [if_pos hlen]
        exact lookup_evictOldestSessions st B
      · rw [if_neg hlen]
        exact Or.inl rfl

/-- C7: ephemeral isolation. Adding a batch under one session id never
changes what another session retrieves, for any query and any embedder: the
results of the other session are either exactly what they were before the add, or
empty (the bulk session eviction inside the add can only drop the whole
session, never leak items into it). -/
theorem ephemeralAdd_isolation (st : EphState) (A B : String)
    (batch : List EphItem) (embed : List String → List (List ℚ)) (t : ℚ)
    (q : String) (k : Nat) (hAB : A ≠ B) :
    ephemeralRetrieve (ephemeralAdd st A batch embed t) B q k embed =
        ephemeralRetrieve st B q k embed ∨
      ephemeralRetrieve (ephemeralAdd st A batch embed t) B q k embed = [] := by
  rcases lookup_ephemeralAdd_ne st A B batch embed t hAB with h | h
  · exact Or.inl (ephemeralRetrieve_congr _ st B q k embed h)
  · exact Or.inr (ephemeralRetrieve_of_lookup_none _ B q k embed h)

/-- Witness for C7 at a concrete state: adding under session `a` leaves
session `s` retrieval untouched or empty. -/
theorem ephemeralAdd_isolation_witness :
    ephemeralRetrieve (ephemeralAdd oneItemState "a" [⟨"x", "y"⟩] unitEmbed 1)
        "s" "q" 5 unitEmbed =
        ephemeralRetrieve oneItemState "s" "q" 5 unitEmbed ∨
      ephemeralRetrieve (ephemeralAdd oneItemState "a" [⟨"x", "y"⟩] unitEmbed 1)
        "s" "q" 5 unitEmbed = [] :=
  ephemeralAdd_isolation oneItemState "a" "s" [⟨"x", "y"⟩] unitEmbed 1 "q" 5
    (by decide)

/-- C8: ephemeral retrieval returns the empty list, without any error, for a
falsy session id, for a session id absent from the session map, and for a
session whose vector store is missing or empty. -/
theorem ephemeralRetrieve_empty_cases (st : EphState) (sid q : String) (k : Nat)
    (e : List String → List (List ℚ)) :
    (ephemeralRetrieve st "" q k e = [])
    ∧ (lookupKey st sid = none → ephemeralRetrieve st sid q k e = [])
    ∧ (∀ store : EphStore, lookupKey st sid = some store → store.vecs = none →
        ephemeralRetrieve st sid q k e = [])
    ∧ (∀ store : EphStore, lookupKey st sid = some store → store.vecs = some [] →
        ephemeralRetrieve st sid q k e = []) := by
  refine ⟨by simp [ephemeralRetrieve], ?_, ?_, ?_⟩
  · intro h
    exact ephemeralRetrieve_of_lookup_none st sid q k e h
  · intro store hs hv
    simp only [ephemeralRetrieve, hs, hv]
    split
    · rfl
    · rfl
  · intro store hs hv
    simp only [ephemeralRetrieve, hs, hv]
    split
    · rfl
    · simp [List.isEmpty]

/-- Witness for C8: retrieval on an unknown session returns the empty list. -/
theorem ephemeralRetrieve_empty_cases_witness :
    ephemeralRetrieve [] "unknown_session" "anything" 5 unitEmbed = [] :=
  (ephemeralRetrieve_empty_cases [] "unknown_session" "anything" 5 unitEmbed).2.1
    (by decide)

set_option maxRecDepth 4000 in
/-- C2 (failing evaluation): after 51 single-item adds to one session the
store holds 26 vector rows but 51 items, so `len(items) == vectors.shape[0]`
fails and the retained vectors are not matched by a trimmed item list; and a
single 60-item add leaves 60 rows, exceeding `MAX_VECTORS_PER_SESSION = 50`.
The retrieval path indexes `items` by vector row positions, so the intended
invariant is the one the claim and spec state; the add path trims only
`vecs` and appends to `items` unconditionally. -/
theorem ephemeralAdd_items_vecs_divergence :
    ((lookupKey singleAddLoop "s").map
        (fun st => ((st.vecs.getD []).length, st.items.length)) = some (26, 51))
    ∧ ((lookupKey (ephemeralAdd [] "s" batch60 unitEmbed 0) "s").map
        (fun st => (st.vecs.getD []).length) = some 60)
    ∧ MAX_VECTORS_PER_SESSION = 50 := by
  refine ⟨by decide, by decide, rfl⟩

/-- C1: RRF fusion adds `1/(60+r)` per 1-based rank `r` under the identity
key, accumulating across lists; on the worked example the fused scores are
`b = 1/62 + 1/61`, `a = 1/61`, `c = 1/62` in that output order. In general
the output is truncated to `top_k` and sorted descending by accumulated
score. -/
theorem rrfMerge_reciprocal_rank_fusion :
    ((rrfMerge [exDenseList, exLexList] 5 60).map (fun h => (h.id, h.score)) =
      [(some "b", mkRat 123 3782), (some "a", mkRat 1 61), (some "c", mkRat 1 62)])
    ∧ ((mkRat 123 3782 : ℚ) = 1 / 62 + 1 / 61)
    ∧ ((mkRat 1 61 : ℚ) = 1 / (60 + 1))
    ∧ ((mkRat 1 62 : ℚ) = 1 / (60 + 2))
    ∧ (∀ (ls : List (List Hit)) (n : Nat) (k : ℚ),
        (rrfMerge ls n k).length ≤ n
        ∧ (rrfMerge ls n k).Pairwise (fun x y => y.score ≤ x.score)) := by
  refine ⟨by decide, by norm_num [Rat.mkRat_eq_div], by norm_num [Rat.mkRat_eq_div],
          by norm_num [Rat.mkRat_eq_div], ?_⟩
  intro ls n k
  constructor
  · rw [rrfMerge]
    exact List.length_take_le n _
  · rw [rrfMerge]
    have hp := pairwise_sortByKey (fun h : Hit => -h.score)
      (((ls.foldl (fun t hits => rrfAddHits k t 1 hits) []).map Prod.snd))
    have hp2 := hp.imp (fun {a b} hab => by
      have : b.score ≤ a.score := by
        have := neg_le_neg_iff.mp hab
        exact this
      exact this)
    exact hp2.sublist (List.take_sublist n _)

/-- C3 (counterexample): the second fusion pass receives
`[dense, memory, ephemeral]`, not `[ephemeral, memory, doc]` as claimed.
With one dense hit and one ephemeral hit at equal ranks the accumulated
scores tie, so the stable sort keeps first-insertion order: the code yields
the dense hit first, the claimed order would yield the ephemeral hit first,
and the two outputs differ. -/
theorem buildContext_fusion_order_counterexample :
    ((buildContextAllHits cDenseFn [] [] oneItemState unitEmbed "s" "hi").map
        (fun h => h.id) = [some "d", some "ephemeral::0"])
    ∧ ((claimedSecondPassEphFirst ((cDenseFn "hi").take 3) (memHitsGated [] [] "hi")
          (ephemeralRetrieve oneItemState "s" "hi" 5 unitEmbed)).map (fun h => h.id)
        = [some "ephemeral::0", some "d"])
    ∧ buildContextAllHits cDenseFn [] [] oneItemState unitEmbed "s" "hi" ≠
        claimedSecondPassEphFirst ((cDenseFn "hi").take 3) (memHitsGated [] [] "hi")
          (ephemeralRetrieve oneItemState "s" "hi" 5 unitEmbed) := by
  refine ⟨by decide, by decide, by decide⟩

/-- C3 (amended): the second RRF pass fuses the three sources in the order
`[doc_hits, memory_hits, ephemeral_hits]` — dense first, then memory, then
ephemeral — with `top_k = 5` and `k = 60`. -/
theorem buildContext_fusion_order_dense_first :
    ∀ (f : String → List Hit) (lr : List LegacyMem) (sr : List MemItem)
      (st : EphState) (e : List String → List (List ℚ)) (sid msg : String),
      buildContextAllHits f lr sr st e sid msg =
        rrfMerge [(f msg).take 3, memHitsGated lr sr msg,
                  ephemeralRetrieve st sid msg 5 e] 5 60 := by
  intro f lr sr st e sid msg
  rfl

/-- C5 (counterexample): context building issues no per-variant searches.
`employment history` is an expansion variant of `work experience`, and a
retriever that answers only that variant would contribute hits under the
claimed per-variant fusion, yet the code produces no hits at all, because it
queries the dense retriever once with the raw message only. -/
theorem buildContext_no_expansion_counterexample :
    (buildContextAllHits c5Fn [] [] [] unitEmbed "" "work experience" = [])
    ∧ ("employment history" ∈ expandQueries "work experience")
    ∧ (claimedPerVariantDocHits c5Fn "work experience" ≠ [])
    ∧ (c5Fn "employment history" ≠ []) := by
  refine ⟨by decide, by decide, by decide, by decide⟩

/-- C5 (amended): the doc-hit source of context building is a single dense
retrieval on the raw query; the result depends on the retriever only through
its value at the message, so no expansion variant is ever searched. -/
theorem buildContext_single_dense_search :
    ∀ (f g : String → List Hit) (lr : List LegacyMem) (sr : List MemItem)
      (st : EphState) (e : List String → List (List ℚ)) (sid msg : String),
      f msg = g msg →
      buildContextAllHits f lr sr st e sid msg =
        buildContextAllHits g lr sr st e sid msg := by
  intro f g lr sr st e sid msg h
  simp only [buildContextAllHits, h]

/-- Witness for C5 (amended) at concrete retrievers agreeing on the message:
the pipelines coincide. -/
theorem buildContext_single_dense_search_witness :
    buildContextAllHits (fun _ => []) [] [] [] unitEmbed "" "hello" =
      buildContextAllHits c5Fn [] [] [] unitEmbed "" "hello" :=
  buildContext_single_dense_search (fun _ => []) c5Fn [] [] [] unitEmbed "" "hello"
    (by decide)

/-- C9: the memory source contributes hits only for queries of at least 15
whitespace tokens. Under that threshold the memory source is the empty list
and the whole context build is independent of the memory stores, which
models the fact that memory retrieval is not invoked at all. -/
theorem memoryGate_token_threshold :
    ∀ (lr : List LegacyMem) (sr : List MemItem) (msg : String),
      (pyWords msg).length < 15 →
      (memHitsGated lr sr msg = [])
      ∧ (∀ (f : String → List Hit) (st : EphState)
          (e : List String → List (List ℚ)) (sid : String)
          (lr2 : List LegacyMem) (sr2 : List MemItem),
          buildContextAllHits f lr sr st e sid msg =
            buildContextAllHits f lr2 sr2 st e sid msg) := by
  intro lr sr msg h
  have hn : ¬ (15 ≤ (pyWords msg).length) := not_le.mpr h
  refine ⟨by simp [memHitsGated, hn], ?_⟩
  intro f st e sid lr2 sr2
  simp [buildContextAllHits, hn]

/-- Witness for C9 on a two-token query: existing memory rows contribute
nothing and do not affect the context build. -/
theorem memoryGate_token_threshold_witness :
    (memHitsGated [⟨1, "fact", "hi"⟩] [] "hi" = [])
    ∧ buildContextAllHits cDenseFn [⟨1, "fact", "hi"⟩] [] [] unitEmbed "" "hi" =
        buildContextAllHits cDenseFn [] [] [] unitEmbed "" "hi" :=
  ⟨(memoryGate_token_threshold [⟨1, "fact", "hi"⟩] [] "hi" (by decide)).1,
   (memoryGate_token_threshold [⟨1, "fact", "hi"⟩] [] "hi" (by decide)).2
     cDenseFn [] unitEmbed "" [] []⟩

theorem length_insertByKey {α β : Type} [LinearOrder β] (k : α → β) (x : α) :
    ∀ l : List α, (insertByKey k x l).length = l.length + 1 := by
  intro l
  induction l with
  | nil => rfl
  | cons y ys ih =>
    by_cases h : k x < k y
    · simp [insertByKey, h]
    · simp [insertByKey, h, ih]

theorem length_foldl_insertByKey {α β : Type} [LinearOrder β] (k : α → β) :
    ∀ (l acc : List α),
      (l.foldl (fun acc x => insertByKey k x acc) acc).length = acc.length + l.length := by
  intro l
  induction l with
  | nil => simp
  | cons x xs ih =>
    intro acc
    rw [List.foldl_cons, ih, length_insertByKey]
    simp only [List.length_cons]
    omega

theorem length_sortByKey {α β : Type} [LinearOrder β] (k : α → β) (l : List α) :
    (sortByKey k l).length = l.length := by
  rw [sortByKey, length_foldl_insertByKey]
  simp

theorem legacyHits_score :
    ∀ (rows : List LegacyMem) (n : Nat) (h : Hit), h ∈ legacyHits n rows →
      h.score = mkRat 7 10 := by
  intro rows
  induction rows with
  | nil => intro n h hm; simp [legacyHits] at hm
  | cons r rs ih =>
    intro n h hm
    rw [legacyHits] at hm
    rcases List.mem_cons.mp hm with hm | hm
    · rw [hm]
    · exact ih (n + 1) h hm

theorem structHitsAcc_mem :
    ∀ (qW : List String) (ms : List MemItem) (results : List Hit) (h : Hit),
      h ∈ structHitsAcc qW results ms →
      h ∈ results ∨ mkRat 1 10 < h.score := by
  intro qW ms
  induction ms with
  | nil => intro results h hm; rw [structHitsAcc] at hm; exact Or.inl hm
  | cons m rest ih =>
    intro results h hm
    rw [structHitsAcc] at hm
    by_cases hc : mkRat 1 10 < structCombined qW m
    · rw [if_pos hc] at hm
      by_cases hct : structContent m = ""
      · rw [if_pos hct] at hm
        exact ih results h hm
      · rw [if_neg hct] at hm
        rcases ih _ h hm with hin | hgt
        · rcases List.mem_append.mp hin with hin | hin
          · exact Or.inl hin
          · refine Or.inr ?_
            rcases List.mem_singleton.mp hin with rfl
            exact hc
        · exact Or.inr hgt
    · rw [if_neg hc] at hm
      exact ih results h hm

/-- C4 (counterexample): memory retrieval is not `semantic_score plus
keyword_boost`. A single-record window whose content shares no token with
the query yields no hit at all from the code (the legacy text search finds
nothing and the structured overlap score 0 fails the 0.1 floor), while the
claimed algorithm scores and returns every windowed record, here returning
one hit (shown for the zero similarity function; the claimed output length
does not depend on the similarity function, as the amended theorem
proves). -/
theorem semanticMemoryRetrieve_not_embedding_counterexample :
    (semanticMemoryRetrieve [] [⟨"m1", "note", none, some "zzzzz"⟩] "hello" 5 = [])
    ∧ ((claimedMemoryRetrieve (fun _ _ => 0) [⟨"zzzzz"⟩] "hello" 5).length = 1) := by
  refine ⟨by decide, by decide⟩

/-- C4 (amended): memory retrieval is purely text based. Every returned hit
is either a legacy substring match with the fixed score 0.7 or a structured
item whose word-overlap score exceeds 0.1; the result is sorted descending
by score and truncated to the limit (and no exception path exists in the
model, which is total). By contrast the claimed window-scoring algorithm
returns exactly `min(window length, limit)` hits for every similarity
function. -/
theorem semanticMemoryRetrieve_text_scoring :
    ∀ (lr : List LegacyMem) (sr : List MemItem) (q : String) (limit : Nat),
      ((semanticMemoryRetrieve lr sr q limit).length ≤ limit)
      ∧ (semanticMemoryRetrieve lr sr q limit).Pairwise (fun a b => b.score ≤ a.score)
      ∧ (∀ h ∈ semanticMemoryRetrieve lr sr q limit,
          h.score = mkRat 7 10 ∨ mkRat 1 10 < h.score)
      ∧ (∀ (sem : String → String → ℚ) (window : List SpecMemRecord),
          (claimedMemoryRetrieve sem window q limit).length = min window.length limit) := by
  intro lr sr q limit
  refine ⟨?_, ?_, ?_, ?_⟩
  · rw [semanticMemoryRetrieve]
    split
    · simp
    · exact List.length_take_le limit _
  · rw [semanticMemoryRetrieve]
    split
    · simp
    · have hp := pairwise_sortByKey (fun h : Hit => -h.score)
        (structHitsAcc (distinctWords (pyStrip (pyLower q)))
          (legacyHits 0 (searchMemories lr q (limit / 2))) (sr.take (limit / 2)))
      have hp2 := hp.imp (fun {a b} hab => neg_le_neg_iff.mp hab)
      exact hp2.sublist (List.take_sublist limit _)
  · intro h hm
    rw [semanticMemoryRetrieve] at hm
    split at hm
    · simp at hm
    · have hm2 := (mem_sortByKey _ h _).mp (List.take_subset _ _ hm)
      rcases structHitsAcc_mem _ _ _ h hm2 with hin | hgt
      · exact Or.inl (legacyHits_score _ 0 h hin)
      · exact Or.inr hgt
  · intro sem window
    rw [claimedMemoryRetrieve]
    rw [List.length_take, length_sortByKey, List.length_map]
    omega

/-- Witness for C4 (amended) on one matching legacy row: the returned hit
carries the fixed legacy score 0.7. -/
theorem semanticMemoryRetrieve_text_scoring_witness :
    ((semanticMemoryRetrieve [⟨1, "fact", "hello world"⟩] [] "hello" 5).length ≤ 5)
    ∧ (c4Hit.score = mkRat 7 10 ∨ mkRat 1 10 < c4Hit.score) :=
  ⟨(semanticMemoryRetrieve_text_scoring [⟨1, "fact", "hello world"⟩] [] "hello" 5).1,
   (semanticMemoryRetrieve_text_scoring [⟨1, "fact", "hello world"⟩] [] "hello" 5).2.2.1
     c4Hit (by decide)⟩

theorem score_assignCe :
    ∀ (hs : List Hit) (ss : List ℚ) (h : Hit), h ∈ assignCe hs ss →
      ∃ h0, h0 ∈ hs ∧ h.score = h0.score := by
  intro hs
  induction hs with
  | nil => intro ss h hm; rw [assignCe] at hm; simp at hm
  | cons x xs ih =>
    intro ss h hm
    cases ss with
    | nil =>
      rw [assignCe] at hm
      exact ⟨h, hm, rfl⟩
    | cons s rest =>
      rw [assignCe] at hm
      rcases List.mem_cons.mp hm with hm | hm
      · exact ⟨x, List.mem_cons_self x xs, by rw [hm]⟩
      · rcases ih rest h hm with ⟨h0, hin, hsc⟩
        exact ⟨h0, List.mem_cons_of_mem x hin, hsc⟩

theorem forall_setKey {α : Type} (P : α → Prop) (k : String) (v : α) :
    ∀ t : List (String × α), (∀ e ∈ t, P e.2) → P v →
      ∀ e ∈ setKey t k v, P e.2 := by
  intro t
  induction t with
  | nil =>
    intro _ hv e he
    rw [setKey] at he
    rcases List.mem_singleton.mp he with rfl
    exact hv
  | cons x xs ih =>
    intro ht hv e he
    rw [setKey] at he
    by_cases hk : x.1 = k
    · rw [if_pos hk] at he
      rcases List.mem_cons.mp he with rfl | he
      · exact hv
      · exact ht e (List.mem_cons_of_mem x he)
    · rw [if_neg hk] at he
      rcases List.mem_cons.mp he with rfl | he
      · exact ht x (List.mem_cons_self x xs)
      · exact ih (fun e2 he2 => ht e2 (List.mem_cons_of_mem x he2)) hv e he

theorem forall_lookupKey {α : Type} (P : α → Prop) (k : String) :
    ∀ t : List (String × α), (∀ e ∈ t, P e.2) → ∀ v, lookupKey t k = some v → P v := by
  intro t
  induction t with
  | nil => intro _ v hv; rw [lookupKey] at hv; exact absurd hv (by simp)
  | cons x xs ih =>
    intro ht v hv
    rw [lookupKey] at hv
    by_cases hk : x.1 = k
    · rw [if_pos hk] at hv
      have hx : x.2 = v := by injection hv
      exact hx ▸ ht x (List.mem_cons_self x xs)
    · rw [if_neg hk] at hv
      exact ih (fun e he => ht e (List.mem_cons_of_mem x he)) v hv

theorem ceNone_ragDenseStep (t : List (String × Hit)) (rank : Nat) (h : Hit)
    (ht : ∀ e ∈ t, e.2.ceScore = none) (hh : h.ceScore = none) :
    ∀ e ∈ ragDenseStep t rank h, e.2.ceScore = none := by
  intro e he
  simp only [ragDenseStep] at he
  refine forall_setKey (fun x : Hit => x.ceScore = none) _ _ t ht ?_ e he
  rcases hlk : lookupKey t (ragKey h ("dense::" ++ toString rank)) with _ | v
  · simp [hlk, hh]
  · have hv := forall_lookupKey (fun x : Hit => x.ceScore = none) _ t ht v hlk
    simp [hlk, hv]

theorem ceNone_ragDenseFold (allowed : Option (List String)) :
    ∀ (dense : List Hit) (t : List (String × Hit)) (rank : Nat),
      (∀ e ∈ t, e.2.ceScore = none) → (∀ h ∈ dense, h.ceScore = none) →
      ∀ e ∈ ragDenseFold allowed t rank dense, e.2.ceScore = none := by
  intro dense
  induction dense with
  | nil =>
    intro t rank ht _ e he
    simp only [ragDenseFold] at he
    exact ht e he
  | cons x xs ih =>
    intro t rank ht hd e he
    simp only [ragDenseFold] at he
    refine ih _ (rank + 1) ?_ (fun h hm => hd h (List.mem_cons_of_mem x hm)) e he
    split
    · exact ceNone_ragDenseStep t rank x ht (hd x (List.mem_cons_self x xs))
    · exact ht

theorem ceNone_ragKwStep (t : List (String × Hit)) (rank : Nat) (h : Hit)
    (ht : ∀ e ∈ t, e.2.ceScore = none) (hh : h.ceScore = none) :
    ∀ e ∈ ragKwStep t rank h, e.2.ceScore = none := by
  intro e he
  simp only [ragKwStep] at he
  refine forall_setKey (fun x : Hit => x.ceScore = none) _ _ t ht ?_ e he
  have hprev : ((lookupKey t (ragKey h ("kw::" ++ toString rank))).getD
      { h with score := 0 }).ceScore = none := by
    rcases hlk : lookupKey t (ragKey h ("kw::" ++ toString rank)) with _ | v
    · simp [hlk, hh]
    · have hv := forall_lookupKey (fun x : Hit => x.ceScore = none) _ t ht v hlk
      simp [hlk, hv]
  split
  · split_ifs <;> simpa using hprev
  · split_ifs <;> simpa using hprev

theorem ceNone_ragKwFold :
    ∀ (kw : List Hit) (t : List (String × Hit)) (rank : Nat),
      (∀ e ∈ t, e.2.ceScore = none) → (∀ h ∈ kw, h.ceScore = none) →
      ∀ e ∈ ragKwFold t rank kw, e.2.ceScore = none := by
  intro kw
  induction kw with
  | nil =>
    intro t rank ht _ e he
    simp only [ragKwFold] at he
    exact ht e he
  | cons x xs ih =>
    intro t rank ht hk e he
    simp only [ragKwFold] at he
    exact ih _ (rank + 1)
      (ceNone_ragKwStep t rank x ht (hk x (List.mem_cons_self x xs)))
      (fun h hm => hk h (List.mem_cons_of_mem x hm)) e he

theorem ceNone_rrfFilteredRag (dense kw : List Hit) (allowed : Option (List String))
    (hd : ∀ h ∈ dense, h.ceScore = none) (hk : ∀ h ∈ kw, h.ceScore = none) :
    ∀ h ∈ rrfFilteredRag dense kw allowed, h.ceScore = none := by
  intro h hm
  rw [rrfFilteredRag] at hm
  have hm2 := (mem_sortByKey _ h _).mp (List.mem_of_mem_filter hm)
  rcases List.mem_map.mp hm2 with ⟨e, he, rfl⟩
  exact ceNone_ragKwFold kw _ 1
    (ceNone_ragDenseFold allowed dense [] 1 (by simp) hd) hk e he

/-- C6: the cross-encoder stage of hybrid retrieval. For queries of at most
3 whitespace tokens the rerank is skipped and the floored fused list is
returned unchanged (so, when the sources carry no `ce_score`, no returned
hit carries one); with no loaded reranker the stage is skipped the same way;
and whenever reranking runs the returned candidates are ordered by the key
`(-ce_score, path, id)`, that is by `ce_score` descending with the
deterministic `(path, id)` tie-break. -/
theorem ragRetrieve_rerank_gating :
    ∀ (dense kw : List Hit) (allowed : Option (List String)) (q : String) (topK : Nat),
      (∀ rr, (pyWords q).length ≤ 3 →
        ragRetrieve dense kw rr allowed q topK =
          (rrfFilteredRag dense kw allowed).take topK)
      ∧ (ragRetrieve dense kw none allowed q topK =
          (rrfFilteredRag dense kw allowed).take topK)
      ∧ (∀ rr, (pyWords q).length ≤ 3 →
          (∀ h ∈ dense, h.ceScore = none) → (∀ h ∈ kw, h.ceScore = none) →
          ∀ h ∈ ragRetrieve dense kw rr allowed q topK, h.ceScore = none)
      ∧ (∀ f, ¬ ((pyWords q).length ≤ 3) →
          (ragRetrieve dense kw (some f) allowed q topK).Pairwise
            (fun a b => ceSortKey a ≤ ceSortKey b)) := by
  intro dense kw allowed q topK
  have hshort : ∀ rr, (pyWords q).length ≤ 3 →
      ragRetrieve dense kw rr allowed q topK =
        (rrfFilteredRag dense kw allowed).take topK := by
    intro rr h
    cases rr with
    | none => rfl
    | some f =>
      rw [ragRetrieve]
      simp [h]
  refine ⟨hshort, rfl, ?_, ?_⟩
  · intro rr h hd hk h2 hm
    rw [hshort rr h] at hm
    exact ceNone_rrfFilteredRag dense kw allowed hd hk h2 (List.take_subset _ _ hm)
  · intro f h
    rw [ragRetrieve]
    by_cases he : (rrfFilteredRag dense kw allowed).isEmpty
    · have hnil : rrfFilteredRag dense kw allowed = [] := List.isEmpty_iff.mp he
      simp [he, hnil]
    · simp only [he, h, Bool.false_or, if_neg, decide_eq_true_eq]
      have hp := pairwise_sortByKey ceSortKey
        (assignCe ((rrfFilteredRag dense kw allowed).take
          (min (rrfFilteredRag dense kw allowed).length (topK * 12)))
          (f (((rrfFilteredRag dense kw allowed).take
            (min (rrfFilteredRag dense kw allowed).length (topK * 12))).map
              (fun h => (q, h.text.getD "")))))
      have := hp.sublist (List.take_sublist topK _)
      simpa [he, h] using this

/-- Witness for C6: a 2-token query bypasses a loaded reranker and returns
the floored fused order with no `ce_score`; a 4-token query with a loaded
reranker yields output sorted by the `(-ce_score, path, id)` key. -/
theorem ragRetrieve_rerank_gating_witness :
    (ragRetrieve [dHit] [] (some ceConst) none "hi there" 5 =
      (rrfFilteredRag [dHit] [] none).take 5)
    ∧ (dAccHit.ceScore = none)
    ∧ (ragRetrieve [dHit] [] (some ceConst) none "one two three four" 5).Pairwise
        (fun a b => ceSortKey a ≤ ceSortKey b) :=
  ⟨(ragRetrieve_rerank_gating [dHit] [] none "hi there" 5).1 (some ceConst) (by decide),
   (ragRetrieve_rerank_gating [dHit] [] none "hi there" 5).2.2.1 (some ceConst)
     (by decide) (by decide) (by decide) dAccHit (by decide),
   (ragRetrieve_rerank_gating [dHit] [] none "one two three four" 5).2.2.2 ceConst
     (by decide)⟩

/-- C10: every hit returned by hybrid retrieval has accumulated fusion score
strictly above 0.01. On the worked example, a hit appearing only in one
source list at rank 40 accumulates exactly `1/(60+40) = 0.01` and is
dropped: the 40-hit single-source retrieval returns 39 hits and `h39` is not
among them. -/
theorem ragRetrieve_relevance_floor :
    (∀ (dense kw : List Hit) (rr : Option (List (String × String) → List ℚ))
        (allowed : Option (List String)) (q : String) (topK : Nat) (h : Hit),
        h ∈ ragRetrieve dense kw rr allowed q topK → mkRat 1 100 < h.score)
    ∧ ((ragRetrieve dense40 [] none none "q" 40).length = 39)
    ∧ (((ragRetrieve dense40 [] none none "q" 40).map (fun h => h.id)).contains
        (some "h39") = false)
    ∧ ((mkRat 1 100 : ℚ) = 1 / (60 + 40)) := by
  have floor : ∀ (dense kw : List Hit) (rr : Option (List (String × String) → List ℚ))
      (allowed : Option (List String)) (q : String) (topK : Nat) (h : Hit),
      h ∈ ragRetrieve dense kw rr allowed q topK → mkRat 1 100 < h.score := by
    intro dense kw rr allowed q topK h hm
    have hfil : ∀ h2 ∈ rrfFilteredRag dense kw allowed, mkRat 1 100 < h2.score := by
      intro h2 hm2
      rw [rrfFilteredRag] at hm2
      rcases List.mem_filter.mp hm2 with ⟨_, hdec⟩
      exact of_decide_eq_true hdec
    cases rr with
    | none =>
      simp only [ragRetrieve] at hm
      exact hfil h (List.take_subset _ _ hm)
    | some f =>
      simp only [ragRetrieve] at hm
      by_cases hc : ((rrfFilteredRag dense kw allowed).isEmpty
          || decide ((pyWords q).length ≤ 3)) = true
      · rw [if_pos hc] at hm
        exact hfil h (List.take_subset _ _ hm)
      · rw [if_neg hc] at hm
        have hm2 := (mem_sortByKey _ h _).mp (List.take_subset _ _ hm)
        rcases score_assignCe _ _ h hm2 with ⟨h0, hin, hsc⟩
        have h0fil := hfil h0 (List.take_subset _ _ hin)
        rw [hsc]
        exact h0fil
  refine ⟨floor, by decide, by decide, by norm_num [Rat.mkRat_eq_div]⟩

/-- Witness for C10: the hit produced from a rank-1 single-source dense hit
carries score `1/61`, strictly above the floor. -/
theorem ragRetrieve_relevance_floor_witness :
    mkRat 1 100 < dAccHit.score :=
  ragRetrieve_relevance_floor.1 [dHit] [] none none "q" 5 dAccHit (by decide)
